import Mathlib

/-!
Verification of the jsonb_ivm core (a PostgreSQL extension for surgical
JSONB mutation) against its natural-language specification.

The Rust sources are shallowly embedded:
- serde_json::Value becomes the inductive `Value` below.  serde numbers are
  modelled by `JNum`: `JNum.int` holds an i64-representable integer and
  `JNum.float` a finite f64, represented by its exact rational value (JSON
  numbers are never NaN or infinite).  `Number::as_i64` succeeds exactly on
  the integer variant.  `Number::as_f64` is modelled as the exact rational
  value in the float fallback of the src/array_ops.rs comparator (f64
  rounding of float payloads is outside the scope of this embedding), and
  with explicit IEEE-754 binary64 round-to-nearest-even of integer payloads
  (`i64_to_f64`) in the src/lib.rs comparator, whose observable behavior on
  integer pairs depends on exactly that rounding.
- serde_json's Map is modelled as an association list in insertion order
  with unique keys (the spec: "keys unique, insertion order preserved");
  `Map::insert` replaces the value of the first matching key in place and
  otherwise appends, and `Map::get` returns the first matching entry.
- PostgreSQL `error!` aborts are modelled as `Except.error`.
-/

namespace JsonbIvm

/-- Model of a serde_json Number: an i64-representable integer, or a finite
f64 represented by its exact rational value. -/
inductive JNum where
  | int (n : Int)
  | float (q : ℚ)
deriving DecidableEq

/-- Model of serde_json::Value: the six JSON variants.  Objects are
association lists in insertion order. -/
inductive Value where
  | null
  | bool (b : Bool)
  | num (n : JNum)
  | str (s : String)
  | arr (items : List Value)
  | obj (entries : List (String × Value))

/-- serde_json Number::as_i64: Some exactly on the integer representation. -/
def Value.as_i64 : Value → Option Int
  | .num (.int n) => some n
  | _ => none

/-- serde_json Number::as_f64: always succeeds; exact-rational model. -/
def JNum.as_f64 : JNum → ℚ
  | .int n => (n : ℚ)
  | .float q => q

/-- serde_json Map::get: the value of the first entry with the given key. -/
def getEntry : List (String × Value) → String → Option Value
  | [], _ => none
  | (k, v) :: t, key => if k = key then some v else getEntry t key

/-- serde_json Value::get with a string index: a lookup on objects, None on
every other variant (used by Rust's `elem.get(match_key)`). -/
def Value.get : Value → String → Option Value
  | .obj m, key => getEntry m key
  | _, _ => none

/-- serde_json Value::is_object. -/
def Value.is_object : Value → Bool
  | .obj _ => true
  | _ => false

/-- serde_json Map::insert (insertion-order map): overwrite the first entry
with this key in place, else append the new entry at the end.  Also models
`entry(k).or_insert(..)` followed by assignment through the reference. -/
def insertEntry : List (String × Value) → String → Value → List (String × Value)
  | [], key, v => [(key, v)]
  | (k, w) :: t, key, v => if k = key then (k, v) :: t else (k, w) :: insertEntry t key v

/-- Rust Iterator::position: index of the first element satisfying the
predicate.  This is the naive linear scan the spec uses as the reference
semantics for the Search Engine. -/
def position (p : Value → Bool) : List Value → Option Nat
  | [] => none
  | v :: t => if p v then some 0 else (position p t).map (· + 1)

/- Structural equality of values (serde_json Value PartialEq). -/
mutual
def beqV : Value → Value → Bool
  | .null, .null => true
  | .bool a, .bool b => a == b
  | .num a, .num b => a == b
  | .str a, .str b => a == b
  | .arr a, .arr b => beqL a b
  | .obj a, .obj b => beqM a b
  | _, _ => false

def beqL : List Value → List Value → Bool
  | [], [] => true
  | a :: t, b :: u => beqV a b && beqL t u
  | _, _ => false

def beqM : List (String × Value) → List (String × Value) → Bool
  | [], [] => true
  | (k1, v1) :: t, (k2, v2) :: u => k1 == k2 && beqV v1 v2 && beqM t u
  | _, _ => false
end

/-! ### Search Engine (src/lib.rs lines 25-69) -/

/-- The integer fast-path predicate: `elem.get(match_key).and_then(as_i64)
== Some(match_value)`. -/
def match_int (match_key : String) (match_value : Int) (e : Value) : Bool :=
  ((e.get match_key).bind Value.as_i64) == some match_value

/-- Scalar fallback `find_by_int_id_scalar` (src/lib.rs lines 65-69):
`iter().position(..)`, a plain linear scan. -/
def find_by_int_id_scalar (array : List Value) (match_key : String) (match_value : Int) :
    Option Nat :=
  position (match_int match_key match_value) array

/-- One contiguous index window of the optimized search: checks indices
start, start+1, ..., start+n-1 in order (both the unrolled inner loop over a
chunk of 8 and the scalar remainder loop have this shape). -/
def scan_range (array : List Value) (match_key : String) (match_value : Int) :
    Nat → Nat → Option Nat
  | _, 0 => none
  | start, n + 1 =>
    if match_int match_key match_value (array.getD start .null) then some start
    else scan_range array match_key match_value (start + 1) n

/-- The chunked loop of `find_by_int_id_optimized`: `remaining` chunks of 8
starting at index `base`, each chunk scanned in order with an early return. -/
def chunk_scan (array : List Value) (match_key : String) (match_value : Int) :
    Nat → Nat → Option Nat
  | 0, _ => none
  | r + 1, base =>
    match scan_range array match_key match_value base 8 with
    | some idx => some idx
    | none => chunk_scan array match_key match_value r (base + 8)

/-- find_by_int_id_optimized (src/lib.rs lines 25-61): scalar scan below 32
elements, otherwise len/8 unrolled chunks of 8 followed by a scalar
remainder loop. -/
def find_by_int_id_optimized (array : List Value) (match_key : String) (match_value : Int) :
    Option Nat :=
  if array.length < 32 then find_by_int_id_scalar array match_key match_value
  else
    let chunks := array.length / 8
    match chunk_scan array match_key match_value chunks 0 with
    | some idx => some idx
    | none =>
      scan_range array match_key match_value (chunks * 8) (array.length - chunks * 8)

/-- The generic match predicate `elem.get(match_key) == Some(match_value)`. -/
def match_generic (match_key : String) (match_value : Value) (e : Value) : Bool :=
  match e.get match_key with
  | some v => beqV v match_value
  | none => false

/-- find_element_by_match (src/array_ops.rs lines 521-533): the optimized
integer search when the match value is an integer, with a generic
equality-scan fallback. -/
def find_element_by_match (array : List Value) (match_key : String) (match_value : Value) :
    Option Nat :=
  match match_value.as_i64 with
  | some int_val =>
    match find_by_int_id_optimized array match_key int_val with
    | some idx => some idx
    | none => position (match_generic match_key match_value) array
  | none => position (match_generic match_key match_value) array

/-! ### Depth Guard (src/depth.rs) -/

/-- Maximum allowed JSONB nesting depth (src/depth.rs line 11). -/
def MAX_JSONB_DEPTH : Nat := 1000

/-- The depth-exceeded error text produced by check_depth
(src/depth.rs line 31). -/
def depth_error_message (max : Nat) : String :=
  "JSONB nesting too deep (max " ++ toString max ++ ", found >" ++ toString max ++ ")"

/- Inner check_depth of validate_depth (src/depth.rs lines 29-50): errors
as soon as any node sits deeper than `max`, else returns the deepest level
reached.  The two list walkers mirror the for-loops over array elements and
object values, threading the running `max_child` accumulator. -/
mutual
def check_depth (v : Value) (current max : Nat) : Except String Nat :=
  if current > max then .error (depth_error_message max)
  else
    match v with
    | .obj m => check_depth_entries m current current max
    | .arr l => check_depth_items l current current max
    | _ => .ok current

def check_depth_items (l : List Value) (maxChild current max : Nat) : Except String Nat :=
  match l with
  | [] => .ok maxChild
  | v :: t =>
    match check_depth v (current + 1) max with
    | .ok d => check_depth_items t (Nat.max maxChild d) current max
    | .error e => .error e

def check_depth_entries (m : List (String × Value)) (maxChild current max : Nat) :
    Except String Nat :=
  match m with
  | [] => .ok maxChild
  | (_, v) :: t =>
    match check_depth v (current + 1) max with
    | .ok d => check_depth_entries t (Nat.max maxChild d) current max
    | .error e => .error e
end

/-- validate_depth (src/depth.rs lines 28-53). -/
def validate_depth (val : Value) (max_depth : Nat) : Except String Unit :=
  match check_depth val 0 max_depth with
  | .ok _ => .ok ()
  | .error e => .error e

/- Inner check_depth of get_max_depth (src/depth.rs lines 67-85): the exact
deepest nesting level, never failing. -/
mutual
def gmd (v : Value) (current : Nat) : Nat :=
  match v with
  | .obj m => gmd_entries m current current
  | .arr l => gmd_items l current current
  | _ => current

def gmd_items (l : List Value) (maxChild current : Nat) : Nat :=
  match l with
  | [] => maxChild
  | v :: t => gmd_items t (Nat.max maxChild (gmd v (current + 1))) current

def gmd_entries (m : List (String × Value)) (maxChild current : Nat) : Nat :=
  match m with
  | [] => maxChild
  | (_, v) :: t => gmd_entries t (Nat.max maxChild (gmd v (current + 1))) current
end

/-- get_max_depth (src/depth.rs lines 66-87). -/
def get_max_depth (val : Value) : Nat := gmd val 0

/-! ### Value comparator (src/array_ops.rs lines 486-518 and the second
copy in src/lib.rs lines 884-911) -/

/-- Rust i64::cmp. -/
def ord_int (a b : Int) : Ordering :=
  if a < b then .lt else if b < a then .gt else .eq

/-- Rust f64::partial_cmp on finite doubles, exact-rational model; the
`unwrap_or(Equal)` NaN fallback is unreachable for JSON numbers. -/
def ord_rat (a b : ℚ) : Ordering :=
  if a < b then .lt else if b < a then .gt else .eq

/-- Rust bool::cmp: false < true. -/
def ord_bool : Bool → Bool → Ordering
  | false, true => .lt
  | true, false => .gt
  | _, _ => .eq

/-- Lexicographic comparison of code-point sequences.  UTF-8 byte order
coincides with code-point order, so this is Rust's byte-wise String::cmp. -/
def ord_chars : List Char → List Char → Ordering
  | [], [] => .eq
  | [], _ :: _ => .lt
  | _ :: _, [] => .gt
  | a :: t, b :: u =>
    if a.toNat < b.toNat then .lt
    else if b.toNat < a.toNat then .gt
    else ord_chars t u

/-- Rust String::cmp (byte-wise lexicographic). -/
def ord_str (a b : String) : Ordering :=
  ord_chars a.data b.data

/-- compare_values (src/array_ops.rs lines 488-518), with the match arms in
source order: number pairs first (exact i64 comparison when both integral,
else by floating value), then string pairs, then bool pairs, then the
mixed-type catch-alls, then Equal for array/object pairings. -/
def compare_values (a b : Value) : Ordering :=
  match a, b with
  | .num an, .num bn =>
    match an, bn with
    | .int ai, .int bi => ord_int ai bi
    | _, _ => ord_rat an.as_f64 bn.as_f64
  | .str sa, .str sb => ord_str sa sb
  | .bool ba, .bool bb => ord_bool ba bb
  | .null, _ => .lt
  | _, .null => .gt
  | .bool _, _ => .lt
  | _, .bool _ => .gt
  | .num _, _ => .lt
  | _, .num _ => .gt
  | .str _, _ => .lt
  | _, .str _ => .gt
  | _, _ => .eq

/-- Rank of each variant in the cross-type order the spec states:
Null < Bool < Number < String, with Array and Object sharing one rank. -/
def type_rank : Value → Nat
  | .null => 0
  | .bool _ => 1
  | .num _ => 2
  | .str _ => 3
  | .arr _ => 4
  | .obj _ => 4

/-- Modelled from the spec: the comparator the spec describes — a total
order comparing different variants by rank (Null < Bool < Number < String,
arrays/objects at the top) and equal-rank pairs by the per-type rule
(false < true; exact integer comparison when both numbers are integral and
floating value otherwise; byte-wise lexicographic strings; any pairing of
Array/Object values treated as equal). -/
def compare_values_spec (a b : Value) : Ordering :=
  if type_rank a < type_rank b then .lt
  else if type_rank b < type_rank a then .gt
  else
    match a, b with
    | .bool ba, .bool bb => ord_bool ba bb
    | .num an, .num bn =>
      match an, bn with
      | .int ai, .int bi => ord_int ai bi
      | _, _ => ord_rat an.as_f64 bn.as_f64
    | .str sa, .str sb => ord_str sa sb
    | _, _ => .eq

/-- Round a magnitude below 2^64 to 53 significant bits, ties to even:
IEEE-754 binary64 rounding applied to an integer magnitude.  Magnitudes up
to 2^53 are exactly representable and returned unchanged; above that, the
value is rounded to the nearest multiple of its ulp 2^e (the least e with
the magnitude below 2^(53+e)), a tie going to the even quotient. -/
def round_to_53 (b : Nat) : Nat :=
  if b ≤ 2 ^ 53 then b
  else
    let e := ((List.range 64).find? (fun k => b < 2 ^ (53 + k))).getD 0
    let q := b / 2 ^ e
    let r := b % 2 ^ e
    let half := 2 ^ (e - 1)
    if half < r ∨ (r = half ∧ q % 2 = 1) then (q + 1) * 2 ^ e else q * 2 ^ e

/-- Rust `i64 as f64` — and serde's Number::as_f64 on an integer payload:
round-to-nearest-even conversion to binary64, modelled on the exact
rationals by rounding the magnitude to 53 significant bits. -/
def i64_to_f64 (i : Int) : ℚ :=
  if 0 ≤ i then (round_to_53 i.toNat : ℚ) else -((round_to_53 (-i).toNat : ℚ))

/-- serde Number::as_f64 with the integer payload's f64 rounding made
explicit; the src/lib.rs comparator funnels every number through this
conversion.  Float payloads are finite f64 values already, so they convert
to themselves. -/
def JNum.as_f64_rounded : JNum → ℚ
  | .int n => i64_to_f64 n
  | .float q => q

/-- compare_values (src/lib.rs lines 886-911), the second copy of the
comparator: the same match arms in the same source order as the
src/array_ops.rs copy, except that the number arm has NO integral fast
path — every number pair is compared by as_f64, rounding integer payloads
to binary64 first. -/
def compare_values_lib (a b : Value) : Ordering :=
  match a, b with
  | .num an, .num bn => ord_rat an.as_f64_rounded bn.as_f64_rounded
  | .str sa, .str sb => ord_str sa sb
  | .bool ba, .bool bb => ord_bool ba bb
  | .null, _ => .lt
  | _, .null => .gt
  | .bool _, _ => .lt
  | _, .bool _ => .gt
  | .num _, _ => .lt
  | _, .num _ => .gt
  | .str _, _ => .lt
  | _, .str _ => .gt
  | _, _ => .eq

/-- The rank-based comparator with the src/lib.rs number rule: equal-rank
pairs compared by the per-type rule, numbers always by rounded f64 value
(no integral fast path). -/
def compare_values_lib_spec (a b : Value) : Ordering :=
  if type_rank a < type_rank b then .lt
  else if type_rank b < type_rank a then .gt
  else
    match a, b with
    | .bool ba, .bool bb => ord_bool ba bb
    | .num an, .num bn => ord_rat an.as_f64_rounded bn.as_f64_rounded
    | .str sa, .str sb => ord_str sa sb
    | _, _ => .eq

/-! ### Merge Engine -/

/-- The shallow-merge core shared by every merge: insert each source entry
into the target map in order, overwriting on key collision. -/
def merge_entries (target : List (String × Value)) :
    List (String × Value) → List (String × Value)
  | [] => target
  | (k, v) :: rest => merge_entries (insertEntry target k v) rest

/-- jsonb_merge_shallow (src/lib.rs lines 96-136): both arguments must be
objects, then source keys overwrite a clone of target.  The copy in
src/merge.rs lines 38-76 additionally validates the source's depth first;
its merge core is identical. -/
def jsonb_merge_shallow (target source : Value) : Except String Value :=
  match target with
  | .obj target_obj =>
    match source with
    | .obj source_obj => .ok (.obj (merge_entries target_obj source_obj))
    | _ => .error "source argument must be a JSONB object"
  | _ => .error "target argument must be a JSONB object"

/-- The path-walking loop of jsonb_merge_at_path (src/merge.rs lines
133-179 and src/lib.rs lines 465-520) on a non-empty path: every hop
requires an object, `entry(key).or_insert(empty object)` materialises the
next node, and the last hop shallow-merges the source into it. -/
def merge_at_path_go (current : Value) (source_obj : List (String × Value)) :
    List String → Except String Value
  | [] => .error "unreachable: the caller guarantees a non-empty path"
  | [key] =>
    match current with
    | .obj parent_obj =>
      match (getEntry parent_obj key).getD (.obj []) with
      | .obj merge_target =>
        .ok (.obj (insertEntry parent_obj key (.obj (merge_entries merge_target source_obj))))
      | _ => .error "Cannot merge into non-object at path"
    | _ => .error "Path navigation failed: expected object"
  | key :: rest =>
    match current with
    | .obj parent_obj =>
      match merge_at_path_go ((getEntry parent_obj key).getD (.obj [])) source_obj rest with
      | .ok updated => .ok (.obj (insertEntry parent_obj key updated))
      | .error e => .error e
    | _ => .error "Path navigation failed: expected object"

/-- jsonb_merge_at_path (src/merge.rs lines 100-182, same in src/lib.rs
lines 426-523): source must be an object; an empty path is a root-level
shallow merge; otherwise the path is walked hop by hop.  Neither copy
invokes validate_depth on the source. -/
def jsonb_merge_at_path (target source : Value) (path : List String) : Except String Value :=
  match source with
  | .obj source_obj =>
    match path with
    | [] =>
      match target with
      | .obj target_obj => .ok (.obj (merge_entries target_obj source_obj))
      | _ => .error "target argument must be a JSONB object when path is empty"
    | _ :: _ => merge_at_path_go target source_obj path
  | _ => .error "source argument must be a JSONB object"

/- deep_merge_recursive (src/lib.rs lines 979-997): when both values are
objects, every source entry is merged into the target map —
`entry(key).and_modify(deep_merge_recursive).or_insert(source value)` —
otherwise the source value wins. -/
mutual
def deep_merge_recursive : Value → Value → Value
  | .obj target_obj, .obj source_obj => .obj (deep_merge_entries target_obj source_obj)
  | _, source => source

def deep_merge_entries (target : List (String × Value)) :
    List (String × Value) → List (String × Value)
  | [] => target
  | (key, source_value) :: rest =>
    match getEntry target key with
    | some target_value =>
      deep_merge_entries (insertEntry target key (deep_merge_recursive target_value source_value))
        rest
    | none => deep_merge_entries (target ++ [(key, source_value)]) rest
end

/-- jsonb_deep_merge (src/lib.rs lines 967-973): hands both documents
straight to deep_merge_recursive, with no depth validation. -/
def jsonb_deep_merge (target source : Value) : Value :=
  deep_merge_recursive target source

/-- jsonb_deep_merge of src/merge.rs lines 377-386: validates the source
against MAX_JSONB_DEPTH before merging. -/
def jsonb_deep_merge_validated (target source : Value) : Except String Value :=
  match validate_depth source MAX_JSONB_DEPTH with
  | .ok _ => .ok (deep_merge_recursive target source)
  | .error e => .error e

/-! ### Array Surgery (src/array_ops.rs) -/

/-- jsonb_array_update_where (src/array_ops.rs lines 49-100): navigate to
the array (fatal if absent or not an array), validate the updates argument
(depth guard, then must be an object), find the first match with
find_element_by_match, and shallow-merge the updates into the matched
element when it is an object. -/
def jsonb_array_update_where (target : Value) (array_path match_key : String)
    (match_value updates : Value) : Except String Value :=
  match target.get array_path with
  | none => .error "Path does not exist in document"
  | some arrv =>
    match target, arrv with
    | .obj target_obj, .arr array_items =>
      match validate_depth updates MAX_JSONB_DEPTH with
      | .error e => .error e
      | .ok _ =>
        match updates with
        | .obj updates_obj =>
          let items :=
            match find_element_by_match array_items match_key match_value with
            | some idx =>
              match array_items.getD idx .null with
              | .obj elem_obj =>
                array_items.set idx (.obj (merge_entries elem_obj updates_obj))
              | _ => array_items
            | none => array_items
          .ok (.obj (insertEntry target_obj array_path (.arr items)))
        | _ => .error "updates argument must be a JSONB object"
    | _, _ => .error "Path does not point to an array"

/-- jsonb_array_delete_where (src/array_ops.rs lines 322-348): missing
field or non-array field returns the document unchanged; otherwise the
first matching element is removed.  The copy in src/lib.rs lines 700-740
inlines find_element_by_match with the same semantics. -/
def jsonb_array_delete_where (target : Value) (array_path match_key : String)
    (match_value : Value) : Value :=
  match target.get array_path with
  | none => target
  | some arrv =>
    match target, arrv with
    | .obj target_obj, .arr array_items =>
      match find_element_by_match array_items match_key match_value with
      | some idx => .obj (insertEntry target_obj array_path (.arr (array_items.eraseIdx idx)))
      | none => target
    | _, _ => target

/-- Rust char::to_ascii_lowercase. -/
def ascii_lower (c : Char) : Char :=
  if 'A' ≤ c ∧ c ≤ 'Z' then Char.ofNat (c.toNat + 32) else c

/-- Rust str::eq_ignore_ascii_case. -/
def eq_ignore_ascii_case (a b : String) : Bool :=
  a.data.map ascii_lower == b.data.map ascii_lower

/-- find_insertion_point (src/array_ops.rs lines 458-483): no sort value
inserts at the end; otherwise the index of the first element whose own
sort-key value orders after the new value under the requested direction
(elements without the key are skipped), defaulting to the end. -/
def find_insertion_point (array : List Value) (new_val : Option Value)
    (sort_key sort_order : String) : Nat :=
  match new_val with
  | none => array.length
  | some nv =>
    (position
      (fun elem =>
        match elem.get sort_key with
        | none => false
        | some elem_val =>
          if eq_ignore_ascii_case sort_order "ASC" then compare_values nv elem_val == .lt
          else compare_values nv elem_val == .gt)
      array).getD array.length

/-- jsonb_array_insert_where (src/array_ops.rs lines 411-453): the document
must be an object; the array is fetched or created empty at the field
(fatal if the field holds a non-array); with a sort key the element is
placed at find_insertion_point, otherwise appended. -/
def jsonb_array_insert_where (target : Value) (array_path : String) (new_element : Value)
    (sort_key sort_order : Option String) : Except String Value :=
  match target with
  | .obj target_obj =>
    match (getEntry target_obj array_path).getD (.arr []) with
    | .arr array_items =>
      let items :=
        match sort_key with
        | some key =>
          let insert_pos :=
            find_insertion_point array_items (new_element.get key) key (sort_order.getD "ASC")
          array_items.insertIdx insert_pos new_element
        | none => array_items ++ [new_element]
      .ok (.obj (insertEntry target_obj array_path (.arr items)))
    | _ => .error "path must point to an array or not exist"
  | _ => .error "target must be a JSONB object"

/-- A sequence of jsonb_array_insert_where calls under one fixed sort key
and order, propagating errors. -/
def insert_many (doc : Value) (array_path sort_key sort_order : String) :
    List Value → Except String Value
  | [] => .ok doc
  | e :: rest =>
    match jsonb_array_insert_where doc array_path e (some sort_key) (some sort_order) with
    | .ok doc2 => insert_many doc2 array_path sort_key sort_order rest
    | .error msg => .error msg

/-- The sort-key values the elements of an array declare, in array order. -/
def keyed_values (sort_key : String) (items : List Value) : List Value :=
  items.filterMap (fun e => e.get sort_key)

/-- Adjacent-pair ordering constraint on declared sort values, under the
spec's total order: non-decreasing for ASC, non-increasing otherwise. -/
def sort_ok (sort_order : String) (a b : Value) : Prop :=
  if eq_ignore_ascii_case sort_order "ASC" = true then compare_values_spec a b ≠ .gt
  else compare_values_spec a b ≠ .lt

/-- The sortedness invariant of the spec: the values declared at the sort
key are ordered pairwise along the array. -/
def sorted_on (sort_key sort_order : String) (items : List Value) : Prop :=
  List.Chain' (sort_ok sort_order) (keyed_values sort_key items)

instance (sort_order : String) (a b : Value) : Decidable (sort_ok sort_order a b) :=
  inferInstanceAs (Decidable (if eq_ignore_ascii_case sort_order "ASC" = true
    then compare_values_spec a b ≠ .gt else compare_values_spec a b ≠ .lt))

instance (sort_key sort_order : String) (items : List Value) :
    Decidable (sorted_on sort_key sort_order items) :=
  inferInstanceAs (Decidable (List.Chain' (sort_ok sort_order) (keyed_values sort_key items)))

/-! ### Path Engine (src/path.rs) -/

/-- Path segments (src/path.rs lines 10-15). -/
inductive PathSegment where
  | key (name : String)
  | index (i : Nat)
deriving DecidableEq

/-- Value of an ASCII digit. -/
def digit_val (c : Char) : Option Nat :=
  if '0' ≤ c ∧ c ≤ '9' then some (c.toNat - '0'.toNat) else none

/-- Digits folded into a number; None on any non-digit. -/
def digits_to_nat : List Char → Nat → Option Nat
  | [], acc => some acc
  | c :: t, acc =>
    match digit_val c with
    | some d => digits_to_nat t (acc * 10 + d)
    | none => none

/-- Rust str::parse::<usize>: an optional leading plus sign, then one or
more ASCII digits, rejecting overflow past 64 bits. -/
def parse_usize (s : String) : Option Nat :=
  let cs := match s.data with
    | c :: rest => if c = '+' then rest else c :: rest
    | [] => []
  match cs with
  | [] => none
  | _ =>
    match digits_to_nat cs 0 with
    | some n => if n < 2 ^ 64 then some n else none
    | none => none

/- The character loop of parse_path (src/path.rs lines 53-97) and, mutually,
the `take_while(c != ']')` index collection of its '[' arm.  `current` is
the key text accumulated so far and `segments` the completed segments. -/
mutual
def parse_path_loop (chars : List Char) (current : String) (segments : List PathSegment) :
    Except String (List PathSegment) :=
  match chars with
  | [] =>
    let segments := if current.isEmpty then segments else segments ++ [.key current]
    if segments.isEmpty then .error "Invalid path: empty path" else .ok segments
  | c :: rest =>
    if c = '.' then
      let segments := if current.isEmpty then segments else segments ++ [.key current]
      match rest with
      | c2 :: _ =>
        if c2 = '.' then .error "Invalid path: consecutive dots"
        else parse_path_loop rest "" segments
      | [] => parse_path_loop rest "" segments
    else if c = '[' then
      let segments := if current.isEmpty then segments else segments ++ [.key current]
      parse_path_index rest "" segments
    else if c = ']' then .error "Invalid path: unexpected closing bracket"
    else parse_path_loop rest (current.push c) segments

def parse_path_index (chars : List Char) (index_str : String) (segments : List PathSegment) :
    Except String (List PathSegment) :=
  match chars with
  | [] =>
    if index_str.isEmpty then .error "Invalid path: empty array index"
    else
      match parse_usize index_str with
      | some n => .ok (segments ++ [.index n])
      | none => .error ("Invalid array index: " ++ index_str)
  | c :: rest =>
    if c = ']' then
      if index_str.isEmpty then .error "Invalid path: empty array index"
      else
        match parse_usize index_str with
        | some n => parse_path_loop rest "" (segments ++ [.index n])
        | none => .error ("Invalid array index: " ++ index_str)
    else parse_path_index rest (index_str.push c) segments
end

/-- parse_path (src/path.rs lines 48-100). -/
def parse_path (path : String) : Except String (List PathSegment) :=
  parse_path_loop path.data "" []

/-! ### Well-formedness and test values -/

/-- Key not present in the tail of an association list. -/
def key_absent (key : String) : List (String × Value) → Bool
  | [] => true
  | (k, _) :: t => if k = key then false else key_absent key t

/-- Pairwise-distinct keys at the top level of an object (what a serde map
always guarantees). -/
def keys_distinct : List (String × Value) → Bool
  | [] => true
  | (k, _) :: t => key_absent k t && keys_distinct t

/- Representation invariant of serde_json values: every object's keys are
pairwise distinct, recursively (serde maps cannot hold duplicate keys). -/
mutual
def wf_value : Value → Bool
  | .arr l => wf_items l
  | .obj m => wf_entries m
  | _ => true

def wf_items : List Value → Bool
  | [] => true
  | v :: t => wf_value v && wf_items t

def wf_entries : List (String × Value) → Bool
  | [] => true
  | (k, v) :: t => key_absent k t && wf_value v && wf_entries t
end

/-- A chain of single-key objects, nested n levels below its root. -/
def nest_obj : Nat → Value
  | 0 => .num (.int 1)
  | n + 1 => .obj [("nested", nest_obj n)]

/-! ## Infrastructure lemmas -/

theorem sizeOf_lt_of_mem_items {v : Value} {l : List Value} (h : v ∈ l) :
    sizeOf v < sizeOf l := by
  induction l with
  | nil => cases h
  | cons a t ih =>
    cases h with
    | head =>
      simp only [List.cons.sizeOf_spec]
      omega
    | tail _ h =>
      have := ih h
      simp only [List.cons.sizeOf_spec]
      omega

theorem sizeOf_lt_of_mem_entries {kv : String × Value} {m : List (String × Value)}
    (h : kv ∈ m) : sizeOf kv.2 < sizeOf m := by
  induction m with
  | nil => cases h
  | cons a t ih =>
    cases h with
    | head =>
      rcases kv with ⟨k, v⟩
      simp only [List.cons.sizeOf_spec, Prod.mk.sizeOf_spec]
      omega
    | tail _ h =>
      have := ih h
      simp only [List.cons.sizeOf_spec]
      omega

/-- Structural induction over values, recursing through array elements and
object entry values. -/
theorem valueInd {P : Value → Prop}
    (hnull : P .null) (hbool : ∀ b, P (.bool b)) (hnum : ∀ n, P (.num n))
    (hstr : ∀ s, P (.str s))
    (harr : ∀ l, (∀ v ∈ l, P v) → P (.arr l))
    (hobj : ∀ m, (∀ kv ∈ m, P kv.2) → P (.obj m)) : ∀ v, P v := by
  have H : ∀ n v, sizeOf v ≤ n → P v := by
    intro n
    induction n with
    | zero =>
      intro v h
      exfalso
      cases v <;> simp_all
    | succ n ih =>
      intro v h
      cases v with
      | null => exact hnull
      | bool b => exact hbool b
      | num m => exact hnum m
      | str s => exact hstr s
      | arr l =>
        refine harr l (fun v hv => ih v ?_)
        have h1 := sizeOf_lt_of_mem_items hv
        have h2 : sizeOf (Value.arr l) = 1 + sizeOf l := by simp
        omega
      | obj m =>
        refine hobj m (fun kv hkv => ih kv.2 ?_)
        have h1 := sizeOf_lt_of_mem_entries hkv
        have h2 : sizeOf (Value.obj m) = 1 + sizeOf m := by simp
        omega
  exact fun v => H (sizeOf v) v le_rfl

theorem beqV_iff_eq : ∀ a b : Value, beqV a b = true ↔ a = b := by
  intro a
  induction a using valueInd with
  | hnull => intro b; cases b <;> simp [beqV]
  | hbool x => intro b; cases b <;> simp [beqV]
  | hnum x => intro b; cases b <;> simp [beqV]
  | hstr x => intro b; cases b <;> simp [beqV]
  | harr l ih =>
    intro b
    cases b with
    | arr l2 =>
      simp only [beqV, Value.arr.injEq]
      induction l generalizing l2 with
      | nil => cases l2 <;> simp [beqL]
      | cons a t iht =>
        cases l2 with
        | nil => simp [beqL]
        | cons b u =>
          simp only [beqL, Bool.and_eq_true, List.cons.injEq]
          rw [ih a (by simp)]
          rw [iht (fun v hv => ih v (by simp [hv])) u]
    | null => simp [beqV]
    | bool _ => simp [beqV]
    | num _ => simp [beqV]
    | str _ => simp [beqV]
    | obj _ => simp [beqV]
  | hobj m ih =>
    intro b
    cases b with
    | obj m2 =>
      simp only [beqV, Value.obj.injEq]
      induction m generalizing m2 with
      | nil => cases m2 <;> simp [beqM]
      | cons a t iht =>
        rcases a with ⟨k1, v1⟩
        cases m2 with
        | nil => simp [beqM]
        | cons b u =>
          rcases b with ⟨k2, v2⟩
          simp only [beqM, Bool.and_eq_true, List.cons.injEq, beq_iff_eq, Prod.mk.injEq]
          rw [ih ⟨k1, v1⟩ (by simp)]
          rw [iht (fun kv hkv => ih kv (by simp [hkv])) u]
    | null => simp [beqV]
    | bool _ => simp [beqV]
    | num _ => simp [beqV]
    | str _ => simp [beqV]
    | arr _ => simp [beqV]

theorem getEntry_insertEntry_self (m : List (String × Value)) (key : String) (v : Value) :
    getEntry (insertEntry m key v) key = some v := by
  induction m with
  | nil => simp [insertEntry, getEntry]
  | cons a t ih =>
    rcases a with ⟨k, w⟩
    by_cases hk : k = key
    · simp [insertEntry, getEntry, hk]
    · simp [insertEntry, getEntry, hk, ih]

theorem getEntry_insertEntry_other (m : List (String × Value)) (key k2 : String) (v : Value)
    (h : k2 ≠ key) : getEntry (insertEntry m key v) k2 = getEntry m k2 := by
  induction m with
  | nil => simp [insertEntry, getEntry, Ne.symm h]
  | cons a t ih =>
    rcases a with ⟨k, w⟩
    by_cases hk : k = key
    · subst hk
      simp [insertEntry, getEntry, Ne.symm h]
    · simp [insertEntry, getEntry, hk, ih]

theorem insertEntry_of_getEntry_eq (m : List (String × Value)) (key : String) (v : Value)
    (h : getEntry m key = some v) : insertEntry m key v = m := by
  induction m with
  | nil => simp [getEntry] at h
  | cons a t ih =>
    rcases a with ⟨k, w⟩
    by_cases hk : k = key
    · subst hk
      simp [getEntry] at h
      simp [insertEntry, h]
    · simp [getEntry, hk] at h
      simp [insertEntry, hk, ih h]

theorem position_eq_none_iff (p : Value → Bool) (l : List Value) :
    position p l = none ↔ ∀ v ∈ l, p v = false := by
  induction l with
  | nil => simp [position]
  | cons a t ih =>
    by_cases hp : p a = true
    · simp [position, hp]
    · have hp2 : p a = false := by simpa using hp
      simp only [position, hp2, Bool.false_eq_true, if_false, Option.map_eq_none']
      rw [ih]
      constructor
      · intro h v hv
        rcases List.mem_cons.mp hv with rfl | hv2
        · exact hp2
        · exact h v hv2
      · intro h v hv
        exact h v (List.mem_cons_of_mem a hv)

theorem position_eq_some (p : Value → Bool) (l : List Value) (i : Nat)
    (h : position p l = some i) :
    i < l.length ∧ p (l.getD i .null) = true ∧ ∀ v ∈ l.take i, p v = false := by
  induction l generalizing i with
  | nil => simp [position] at h
  | cons a t ih =>
    by_cases hp : p a = true
    · simp only [position, hp, if_true, Option.some.injEq] at h
      subst h
      simpa using hp
    · have hp2 : p a = false := by simpa using hp
      simp only [position, hp2, Bool.false_eq_true, if_false] at h
      cases hpos : position p t with
      | none =>
        rw [hpos] at h
        simp at h
      | some j =>
        rw [hpos] at h
        simp only [Option.map_some', Option.some.injEq] at h
        subst h
        obtain ⟨h1, h2, h3⟩ := ih j hpos
        refine ⟨by simp; omega, by simpa using h2, ?_⟩
        intro v hv
        simp only [List.take_succ_cons, List.mem_cons] at hv
        rcases hv with rfl | hv
        · exact hp2
        · exact h3 v hv

/-! ## Depth guard lemmas (C4, C1) -/

theorem gmd_items_ge_acc (l : List Value) : ∀ mc c, mc ≤ gmd_items l mc c := by
  induction l with
  | nil => intro mc c; simp [gmd_items]
  | cons v t ih =>
    intro mc c
    calc mc ≤ Nat.max mc (gmd v (c + 1)) := Nat.le_max_left _ _
    _ ≤ gmd_items t (Nat.max mc (gmd v (c + 1))) c := ih _ _

theorem gmd_entries_ge_acc (m : List (String × Value)) : ∀ mc c, mc ≤ gmd_entries m mc c := by
  induction m with
  | nil => intro mc c; simp [gmd_entries]
  | cons kv t ih =>
    intro mc c
    rcases kv with ⟨k, v⟩
    calc mc ≤ Nat.max mc (gmd v (c + 1)) := Nat.le_max_left _ _
    _ ≤ gmd_entries t (Nat.max mc (gmd v (c + 1))) c := ih _ _

theorem gmd_ge (v : Value) (c : Nat) : c ≤ gmd v c := by
  cases v with
  | arr l => exact gmd_items_ge_acc l c c
  | obj m => exact gmd_entries_ge_acc m c c
  | null => simp [gmd]
  | bool _ => simp [gmd]
  | num _ => simp [gmd]
  | str _ => simp [gmd]

/-- check_depth of a node that already sits past the bound fails at once. -/
theorem check_depth_of_gt (v : Value) (cur mx : Nat) (h : mx < cur) :
    check_depth v cur mx = .error (depth_error_message mx) := by
  unfold check_depth
  rw [if_pos h]

theorem check_depth_items_cons (v : Value) (t : List Value) (mc c mx : Nat) :
    check_depth_items (v :: t) mc c mx =
      match check_depth v (c + 1) mx with
      | .ok d => check_depth_items t (Nat.max mc d) c mx
      | .error e => .error e := rfl

theorem check_depth_entries_cons (k : String) (v : Value) (t : List (String × Value))
    (mc c mx : Nat) :
    check_depth_entries ((k, v) :: t) mc c mx =
      match check_depth v (c + 1) mx with
      | .ok d => check_depth_entries t (Nat.max mc d) c mx
      | .error e => .error e := rfl

/-- check_depth computes exactly the depth that get_max_depth's walker
computes, failing precisely when it exceeds the bound. -/
theorem check_depth_eq : ∀ v : Value, ∀ c max : Nat, c ≤ max →
    check_depth v c max =
      if gmd v c ≤ max then .ok (gmd v c) else .error (depth_error_message max) := by
  intro v
  induction v using valueInd with
  | hnull =>
    intro c max hc
    simp [check_depth, gmd, Nat.not_lt.mpr hc, hc]
  | hbool b =>
    intro c max hc
    simp [check_depth, gmd, Nat.not_lt.mpr hc, hc]
  | hnum n =>
    intro c max hc
    simp [check_depth, gmd, Nat.not_lt.mpr hc, hc]
  | hstr s =>
    intro c max hc
    simp [check_depth, gmd, Nat.not_lt.mpr hc, hc]
  | harr l ihmem =>
    intro c max hc
    have aux : ∀ t : List Value, (∀ v ∈ t, ∀ c2 max2 : Nat, c2 ≤ max2 →
        check_depth v c2 max2 =
          if gmd v c2 ≤ max2 then .ok (gmd v c2) else .error (depth_error_message max2)) →
        ∀ mc, mc ≤ max →
        check_depth_items t mc c max =
          if gmd_items t mc c ≤ max then .ok (gmd_items t mc c)
          else .error (depth_error_message max) := by
      intro t
      induction t with
      | nil =>
        intro _ mc hmc
        simp [check_depth_items, gmd_items, hmc]
      | cons v t2 iht =>
        intro hmem mc hmc
        rw [check_depth_items_cons]
        by_cases hstep : c + 1 ≤ max
        · rw [hmem v (List.mem_cons_self v t2) (c + 1) max hstep]
          by_cases hdeep : gmd v (c + 1) ≤ max
          · rw [if_pos hdeep]
            dsimp only
            rw [iht (fun w hw => hmem w (List.mem_cons_of_mem v hw)) _
              (Nat.max_le.mpr ⟨hmc, hdeep⟩)]
            simp [gmd_items]
          · rw [if_neg hdeep]
            dsimp only
            have hgt : ¬ gmd_items (v :: t2) mc c ≤ max := by
              have h1 : gmd v (c + 1) ≤ Nat.max mc (gmd v (c + 1)) := Nat.le_max_right _ _
              have h2 := gmd_items_ge_acc t2 (Nat.max mc (gmd v (c + 1))) c
              simp only [gmd_items]
              omega
            rw [if_neg hgt]
        · rw [check_depth_of_gt v (c + 1) max (by omega)]
          dsimp only
          have hgt : ¬ gmd_items (v :: t2) mc c ≤ max := by
            have h0 := gmd_ge v (c + 1)
            have h1 : gmd v (c + 1) ≤ Nat.max mc (gmd v (c + 1)) := Nat.le_max_right _ _
            have h2 := gmd_items_ge_acc t2 (Nat.max mc (gmd v (c + 1))) c
            simp only [gmd_items]
            omega
          rw [if_neg hgt]
    rw [check_depth, if_neg (Nat.not_lt.mpr hc)]
    have h2 := aux l (fun v hv => ihmem v hv) c hc
    simpa [gmd] using h2
  | hobj m ihmem =>
    intro c max hc
    have aux : ∀ t : List (String × Value), (∀ kv ∈ t, ∀ c2 max2 : Nat, c2 ≤ max2 →
        check_depth kv.2 c2 max2 =
          if gmd kv.2 c2 ≤ max2 then .ok (gmd kv.2 c2) else .error (depth_error_message max2)) →
        ∀ mc, mc ≤ max →
        check_depth_entries t mc c max =
          if gmd_entries t mc c ≤ max then .ok (gmd_entries t mc c)
          else .error (depth_error_message max) := by
      intro t
      induction t with
      | nil =>
        intro _ mc hmc
        simp [check_depth_entries, gmd_entries, hmc]
      | cons kv t2 iht =>
        intro hmem mc hmc
        rcases kv with ⟨k, v⟩
        rw [check_depth_entries_cons]
        by_cases hstep : c + 1 ≤ max
        · have hv := hmem ⟨k, v⟩ (List.mem_cons_self _ t2) (c + 1) max hstep
          dsimp only at hv
          rw [hv]
          by_cases hdeep : gmd v (c + 1) ≤ max
          · rw [if_pos hdeep]
            dsimp only
            rw [iht (fun w hw => hmem w (List.mem_cons_of_mem _ hw)) _
              (Nat.max_le.mpr ⟨hmc, hdeep⟩)]
            simp [gmd_entries]
          · rw [if_neg hdeep]
            dsimp only
            have hgt : ¬ gmd_entries ((k, v) :: t2) mc c ≤ max := by
              have h1 : gmd v (c + 1) ≤ Nat.max mc (gmd v (c + 1)) := Nat.le_max_right _ _
              have h2 := gmd_entries_ge_acc t2 (Nat.max mc (gmd v (c + 1))) c
              simp only [gmd_entries]
              omega
            rw [if_neg hgt]
        · rw [check_depth_of_gt v (c + 1) max (by omega)]
          dsimp only
          have hgt : ¬ gmd_entries ((k, v) :: t2) mc c ≤ max := by
            have h0 := gmd_ge v (c + 1)
            have h1 : gmd v (c + 1) ≤ Nat.max mc (gmd v (c + 1)) := Nat.le_max_right _ _
            have h2 := gmd_entries_ge_acc t2 (Nat.max mc (gmd v (c + 1))) c
            simp only [gmd_entries]
            omega
          rw [if_neg hgt]
    rw [check_depth, if_neg (Nat.not_lt.mpr hc)]
    have h2 := aux m (fun kv hkv => ihmem kv hkv) c hc
    simpa [gmd] using h2

/-- validate_depth accepts exactly the values whose maximum nesting depth is
within the bound, and otherwise returns the depth-exceeded error. -/
theorem validate_depth_eq (v : Value) (d : Nat) :
    validate_depth v d =
      if get_max_depth v ≤ d then .ok () else .error (depth_error_message d) := by
  rw [validate_depth, get_max_depth, check_depth_eq v 0 d (Nat.zero_le d)]
  by_cases h : gmd v 0 ≤ d
  · rw [if_pos h, if_pos h]
  · rw [if_neg h, if_neg h]

theorem gmd_nest_obj : ∀ n c, gmd (nest_obj n) c = c + n := by
  intro n
  induction n with
  | zero => intro c; simp [nest_obj, gmd]
  | succ n ih =>
    intro c
    simp only [nest_obj, gmd, gmd_entries, ih (c + 1)]
    have hone : Nat.max c (c + 1 + n) = c + 1 + n := Nat.max_eq_right (by omega)
    rw [hone]
    omega

/-- Sanity check: a two-level document at a two-level budget. -/
theorem validate_depth_small_ok :
    validate_depth (.obj [("nested", .obj [("level", .num (.int 1))])]) 2 = .ok () := rfl

/-- Sanity check: a three-level document at a two-level budget fails. -/
theorem validate_depth_small_err :
    validate_depth (.obj [("a", .obj [("b", .obj [("c", .null)])])]) 2 =
      .error (depth_error_message 2) := rfl

/-- C4: validate_depth is exactly threshold-calibrated: a value whose
maximum nesting depth is exactly max_depth passes, and a value nested to
max_depth + 1 levels is rejected with the depth-exceeded error; the
configured default MAX_JSONB_DEPTH is 1000. -/
theorem C4_validate_depth_threshold_calibrated :
    MAX_JSONB_DEPTH = 1000 ∧
    ∀ (v : Value) (max_depth : Nat),
      (get_max_depth v = max_depth → validate_depth v max_depth = .ok ()) ∧
      (get_max_depth v = max_depth + 1 →
        validate_depth v max_depth = .error (depth_error_message max_depth)) := by
  refine ⟨rfl, fun v d => ⟨fun h => ?_, fun h => ?_⟩⟩
  · rw [validate_depth_eq, if_pos (by omega)]
  · rw [validate_depth_eq, if_neg (by omega)]

/-- C1: the depth guard is NOT invoked by the cited merge entry points.  The
source document below is nested 1001 levels deep, which validate_depth
rejects at the default bound of 1000; yet jsonb_merge_at_path (both copies
lack the guard) and jsonb_deep_merge of src/lib.rs merge it successfully.
Only the src/merge.rs copy of jsonb_deep_merge rejects it. -/
theorem C1_deep_source_merged_without_depth_guard :
    validate_depth (.obj [("x", nest_obj 1000)]) MAX_JSONB_DEPTH =
      .error (depth_error_message 1000) ∧
    jsonb_merge_at_path (.obj []) (.obj [("x", nest_obj 1000)]) ["cfg"] =
      .ok (.obj [("cfg", .obj [("x", nest_obj 1000)])]) ∧
    jsonb_deep_merge (.obj []) (.obj [("x", nest_obj 1000)]) = .obj [("x", nest_obj 1000)] ∧
    jsonb_deep_merge_validated (.obj []) (.obj [("x", nest_obj 1000)]) =
      .error (depth_error_message 1000) := by
  have hd : get_max_depth (.obj [("x", nest_obj 1000)]) = 1001 := by
    have hstep : get_max_depth (.obj [("x", nest_obj 1000)]) =
        gmd_entries [] (Nat.max 0 (gmd (nest_obj 1000) 1)) 0 := rfl
    rw [hstep, gmd_nest_obj]
    simp [gmd_entries]
  have hv : validate_depth (.obj [("x", nest_obj 1000)]) MAX_JSONB_DEPTH =
      .error (depth_error_message 1000) := by
    rw [show MAX_JSONB_DEPTH = 1000 from rfl, validate_depth_eq, hd, if_neg (by omega)]
  refine ⟨hv, rfl, rfl, ?_⟩
  simp only [jsonb_deep_merge_validated, hv]

/-! ## Merge Engine lemmas (C3, C9) -/

theorem key_absent_imp {key : String} {m : List (String × Value)}
    (h : key_absent key m = true) : ∀ p ∈ m, p.1 ≠ key := by
  induction m with
  | nil => intro p hp; cases hp
  | cons a t ih =>
    rcases a with ⟨k, v⟩
    by_cases hk : k = key
    · simp [key_absent, hk] at h
    · simp only [key_absent, hk, if_false] at h
      intro p hp
      rcases List.mem_cons.mp hp with rfl | hp2
      · exact hk
      · exact ih h p hp2

theorem getEntry_eq_none_of_key_absent {key : String} {m : List (String × Value)}
    (h : key_absent key m = true) : getEntry m key = none := by
  induction m with
  | nil => rfl
  | cons a t ih =>
    rcases a with ⟨k, v⟩
    by_cases hk : k = key
    · simp [key_absent, hk] at h
    · simp only [key_absent, hk, if_false] at h
      simp [getEntry, hk, ih h]

/-- Shallow-merge lookup semantics: a key found in the source gets the
source's value, any other key keeps the target's value, and keys in neither
are absent. -/
theorem getEntry_merge_entries (source_obj : List (String × Value)) :
    ∀ target_obj, keys_distinct source_obj = true → ∀ key,
      getEntry (merge_entries target_obj source_obj) key =
        (getEntry source_obj key).or (getEntry target_obj key) := by
  induction source_obj with
  | nil => intro tm _ key; simp [merge_entries, getEntry]
  | cons a rest ih =>
    rcases a with ⟨k1, v1⟩
    intro tm hdist key
    simp only [keys_distinct, Bool.and_eq_true] at hdist
    rw [show merge_entries tm ((k1, v1) :: rest) = merge_entries (insertEntry tm k1 v1) rest
      from rfl]
    rw [ih (insertEntry tm k1 v1) hdist.2 key]
    by_cases hk : key = k1
    · subst hk
      rw [getEntry_eq_none_of_key_absent hdist.1]
      simp [getEntry, getEntry_insertEntry_self]
    · rw [getEntry_insertEntry_other tm k1 key v1 hk]
      simp [getEntry, Ne.symm hk]

/-- C3: for all object targets and sources, jsonb_merge_shallow returns an
object holding every source key with the source's value, every other target
key with the target's value unchanged, and no other keys. -/
theorem C3_merge_shallow_key_semantics :
    ∀ target_obj source_obj : List (String × Value),
      keys_distinct source_obj = true →
      ∃ merged,
        jsonb_merge_shallow (.obj target_obj) (.obj source_obj) = .ok (.obj merged) ∧
        ∀ key, getEntry merged key = (getEntry source_obj key).or (getEntry target_obj key) :=
  fun tm sm hdist => ⟨merge_entries tm sm, rfl, getEntry_merge_entries sm tm hdist⟩

/-- Witness for C3 at the spec's own example. -/
theorem C3_merge_shallow_key_semantics_witness :
    ∃ merged,
      jsonb_merge_shallow
        (.obj [("a", .num (.int 1)), ("b", .num (.int 2))])
        (.obj [("b", .num (.int 99)), ("c", .num (.int 3))]) = .ok (.obj merged) ∧
      ∀ key, getEntry merged key =
        (getEntry [("b", .num (.int 99)), ("c", .num (.int 3))] key).or
          (getEntry [("a", .num (.int 1)), ("b", .num (.int 2))] key) :=
  C3_merge_shallow_key_semantics _ _ (by decide)

theorem getEntry_eq_of_wf_entries {m : List (String × Value)}
    (h : wf_entries m = true) : ∀ p ∈ m, getEntry m p.1 = some p.2 := by
  induction m with
  | nil => intro p hp; cases hp
  | cons a t ih =>
    rcases a with ⟨k, v⟩
    simp only [wf_entries, Bool.and_eq_true] at h
    intro p hp
    rcases List.mem_cons.mp hp with rfl | hp2
    · simp [getEntry]
    · have hne : p.1 ≠ k := key_absent_imp h.1.1 p hp2
      have hne2 : ¬ k = p.1 := fun hh => hne hh.symm
      simp only [getEntry, if_neg hne2]
      exact ih h.2 p hp2

theorem wf_entries_mem {m : List (String × Value)} (h : wf_entries m = true) :
    ∀ p ∈ m, wf_value p.2 = true := by
  induction m with
  | nil => intro p hp; cases hp
  | cons a t ih =>
    rcases a with ⟨k, v⟩
    simp only [wf_entries, Bool.and_eq_true] at h
    intro p hp
    rcases List.mem_cons.mp hp with rfl | hp2
    · exact h.1.2
    · exact ih h.2 p hp2

theorem deep_merge_entries_self :
    ∀ (s t : List (String × Value)),
      (∀ p ∈ s, getEntry t p.1 = some p.2) →
      (∀ p ∈ s, deep_merge_recursive p.2 p.2 = p.2) →
      deep_merge_entries t s = t := by
  intro s
  induction s with
  | nil => intro t _ _; rfl
  | cons a rest ih =>
    rcases a with ⟨k, sv⟩
    intro t hget hdmr
    have h1 : getEntry t k = some sv := hget ⟨k, sv⟩ (List.mem_cons_self _ _)
    have h2 : deep_merge_recursive sv sv = sv := hdmr ⟨k, sv⟩ (List.mem_cons_self _ _)
    rw [show deep_merge_entries t ((k, sv) :: rest) =
        match getEntry t k with
        | some tv => deep_merge_entries (insertEntry t k (deep_merge_recursive tv sv)) rest
        | none => deep_merge_entries (t ++ [(k, sv)]) rest
      from rfl]
    rw [h1]
    dsimp only
    rw [h2, insertEntry_of_getEntry_eq t k sv h1]
    exact ih t (fun p hp => hget p (List.mem_cons_of_mem _ hp))
      (fun p hp => hdmr p (List.mem_cons_of_mem _ hp))

/-- C9: deep_merge is idempotent on identical arguments: for every
well-formed value (object keys pairwise distinct, as serde guarantees),
deep-merging a document with itself returns it unchanged. -/
theorem C9_deep_merge_idempotent :
    ∀ v : Value, wf_value v = true → jsonb_deep_merge v v = v := by
  intro v
  induction v using valueInd with
  | hnull => intro _; rfl
  | hbool b => intro _; rfl
  | hnum n => intro _; rfl
  | hstr s => intro _; rfl
  | harr l _ => intro _; rfl
  | hobj m ihmem =>
    intro hwf
    have hwf2 : wf_entries m = true := hwf
    show Value.obj (deep_merge_entries m m) = Value.obj m
    rw [deep_merge_entries_self m m (getEntry_eq_of_wf_entries hwf2)
      (fun p hp => ihmem p hp (wf_entries_mem hwf2 p hp))]

/-- Witness for C9 on a nested concrete document. -/
theorem C9_deep_merge_idempotent_witness :
    jsonb_deep_merge
      (.obj [("a", .num (.int 1)), ("b", .obj [("c", .null), ("d", .arr [.bool true])])])
      (.obj [("a", .num (.int 1)), ("b", .obj [("c", .null), ("d", .arr [.bool true])])]) =
    .obj [("a", .num (.int 1)), ("b", .obj [("c", .null), ("d", .arr [.bool true])])] :=
  C9_deep_merge_idempotent _ (by decide)

/-! ## Comparator lemmas (C6, C7) -/

theorem ord_int_swap (a b : Int) : ord_int b a = (ord_int a b).swap := by
  unfold ord_int
  split_ifs <;> first | rfl | omega

theorem ord_rat_swap (a b : ℚ) : ord_rat b a = (ord_rat a b).swap := by
  unfold ord_rat
  split_ifs <;> first | rfl | (exfalso; linarith)

theorem ord_bool_swap (a b : Bool) : ord_bool b a = (ord_bool a b).swap := by
  cases a <;> cases b <;> rfl

theorem ord_chars_swap : ∀ a b : List Char, ord_chars b a = (ord_chars a b).swap := by
  intro a
  induction a with
  | nil => intro b; cases b <;> rfl
  | cons c t ih =>
    intro b
    cases b with
    | nil => rfl
    | cons d u =>
      simp only [ord_chars]
      split_ifs <;> first | rfl | omega | exact ih u

theorem ord_str_swap (a b : String) : ord_str b a = (ord_str a b).swap :=
  ord_chars_swap a.data b.data

/-- compare_values agrees with the spec's rank-based total order on every
pair except (Null, Null). -/
theorem compare_values_eq_spec_off_null :
    ∀ a b : Value, (a = .null ∧ b = .null) ∨ compare_values a b = compare_values_spec a b := by
  intro a b
  cases a <;> cases b <;> first | (left; exact ⟨rfl, rfl⟩) | (right; rfl)

theorem compare_values_spec_swap :
    ∀ a b : Value, compare_values_spec b a = (compare_values_spec a b).swap := by
  intro a b
  cases a <;> cases b
  all_goals first
    | rfl
    | exact ord_bool_swap _ _
    | exact ord_str_swap _ _
    | (rename_i x y
       cases x <;> cases y <;> first | exact ord_int_swap _ _ | exact ord_rat_swap _ _)

/-- Integer payloads of magnitude at most 2^53 convert to f64 exactly. -/
theorem i64_to_f64_exact (i : Int) (h : i.natAbs ≤ 2 ^ 53) : i64_to_f64 i = (i : ℚ) := by
  unfold i64_to_f64
  by_cases hi : 0 ≤ i
  · rw [if_pos hi]
    have hb : i.toNat ≤ 2 ^ 53 := by omega
    unfold round_to_53
    rw [if_pos hb]
    have h2 : ((i.toNat : ℤ)) = i := Int.toNat_of_nonneg hi
    calc ((i.toNat : ℕ) : ℚ) = ((i.toNat : ℤ) : ℚ) := by norm_cast
    _ = (i : ℚ) := by rw [h2]
  · rw [if_neg hi]
    have hb : (-i).toNat ≤ 2 ^ 53 := by omega
    unfold round_to_53
    rw [if_pos hb]
    have h2 : (((-i).toNat : ℤ)) = -i := Int.toNat_of_nonneg (by omega)
    calc -(((-i).toNat : ℕ) : ℚ) = -((((-i).toNat : ℤ) : ℚ)) := by norm_cast
    _ = -((-i : ℤ) : ℚ) := by rw [h2]
    _ = (i : ℚ) := by push_cast; ring

/-- Comparing integers through their exact rational casts is integer
comparison. -/
theorem ord_rat_intCast (i j : Int) : ord_rat (i : ℚ) (j : ℚ) = ord_int i j := by
  unfold ord_rat ord_int
  by_cases h1 : i < j
  · rw [if_pos (by exact_mod_cast h1 : (i : ℚ) < (j : ℚ)), if_pos h1]
  · rw [if_neg (by exact_mod_cast h1 : ¬((i : ℚ) < (j : ℚ))), if_neg h1]
    by_cases h2 : j < i
    · rw [if_pos (by exact_mod_cast h2 : (j : ℚ) < (i : ℚ)), if_pos h2]
    · rw [if_neg (by exact_mod_cast h2 : ¬((j : ℚ) < (i : ℚ))), if_neg h2]

/-- The src/lib.rs comparator agrees with its rank-based rearrangement on
every pair except (Null, Null). -/
theorem compare_values_lib_eq_spec_off_null :
    ∀ a b : Value,
      (a = .null ∧ b = .null) ∨ compare_values_lib a b = compare_values_lib_spec a b := by
  intro a b
  cases a <;> cases b <;> first | (left; exact ⟨rfl, rfl⟩) | (right; rfl)

/-- C6 counterexamples: (i) both copies of compare_values compare Null with
Null as Less, not Equal — the Null catch-all arm fires before any equality
check; (ii) the src/lib.rs copy has no integral branch, so the distinct
i64 integers 2^53 and 2^53 + 1 compare Equal there (both round to the f64
2^53), where the claim's exact 64-bit integer comparison — and the
src/array_ops.rs copy — yields Less. -/
theorem C6_counterexample_null_and_f64_rounding :
    (compare_values .null .null = .lt ∧ compare_values_lib .null .null = .lt ∧
      compare_values_spec .null .null = .eq) ∧
    compare_values_lib (.num (.int 9007199254740992)) (.num (.int 9007199254740993)) = .eq ∧
    compare_values (.num (.int 9007199254740992)) (.num (.int 9007199254740993)) = .lt := by
  refine ⟨⟨rfl, rfl, rfl⟩, by decide, by decide⟩

/-- C6 amended: on every pair other than (Null, Null) the src/array_ops.rs
copy of compare_values implements exactly the rank-based cross-type order
the claim states (Null < Bool < Number < String, false < true, exact
integer comparison when both numbers are integral else floating value,
byte-wise strings, pairings of Array/Object values equal), and the
src/lib.rs copy implements the same rank order with numbers always
compared by binary64-rounded floating value (it has no integral branch);
both copies compare Null with Null as Less, not Equal; on integer pairs
within ±2^53 — where f64 rounding is exact — the two copies agree. -/
theorem C6_compare_values_rank_order :
    (∀ a b : Value, a ≠ .null ∨ b ≠ .null → compare_values a b = compare_values_spec a b) ∧
    compare_values .null .null = .lt ∧
    (∀ a b : Value, a ≠ .null ∨ b ≠ .null →
      compare_values_lib a b = compare_values_lib_spec a b) ∧
    compare_values_lib .null .null = .lt ∧
    (∀ i j : Int, i.natAbs ≤ 2 ^ 53 → j.natAbs ≤ 2 ^ 53 →
      compare_values_lib (.num (.int i)) (.num (.int j)) =
        compare_values (.num (.int i)) (.num (.int j))) := by
  refine ⟨?_, rfl, ?_, rfl, ?_⟩
  · intro a b h
    rcases compare_values_eq_spec_off_null a b with ⟨ha, hb⟩ | heq
    · rcases h with h | h
      · exact absurd ha h
      · exact absurd hb h
    · exact heq
  · intro a b h
    rcases compare_values_lib_eq_spec_off_null a b with ⟨ha, hb⟩ | heq
    · rcases h with h | h
      · exact absurd ha h
      · exact absurd hb h
    · exact heq
  · intro i j hi hj
    show ord_rat (i64_to_f64 i) (i64_to_f64 j) = ord_int i j
    rw [i64_to_f64_exact i hi, i64_to_f64_exact j hj]
    exact ord_rat_intCast i j

/-! ## Search Engine lemmas (C2) -/

/-- Scanning the index window [s, s+n) equals the naive scan of that window
of the list, with indices shifted by s. -/
theorem scan_range_eq_position (l : List Value) (key : String) (m : Int) :
    ∀ n s, scan_range l key m s n =
      (position (match_int key m) ((l.drop s).take n)).map (· + s) := by
  intro n
  induction n with
  | zero => intro s; simp [scan_range, position]
  | succ n ih =>
    intro s
    rw [show scan_range l key m s (n + 1) =
        (if match_int key m (l.getD s .null) then some s
         else scan_range l key m (s + 1) n) from rfl]
    cases hds : l.drop s with
    | nil =>
      have hlen : l.length ≤ s := List.drop_eq_nil_iff.mp hds
      have hnil2 : l.drop (s + 1) = [] := List.drop_eq_nil_iff.mpr (by omega)
      rw [List.getD_eq_default l .null hlen]
      rw [show match_int key m Value.null = false from rfl]
      simp only [Bool.false_eq_true, if_false]
      rw [ih (s + 1), hnil2]
      simp [position]
    | cons a t =>
      have hs : s < l.length := by
        by_contra hcon
        rw [List.drop_eq_nil_iff.mpr (by omega)] at hds
        cases hds
      have hdec := List.drop_eq_getElem_cons (l := l) hs
      rw [hds] at hdec
      have ha : a = l[s] := (List.cons.injEq _ _ _ _ ▸ hdec).1
      have ht : t = l.drop (s + 1) := (List.cons.injEq _ _ _ _ ▸ hdec).2
      rw [List.getD_eq_getElem l .null hs, ← ha, List.take_succ_cons]
      by_cases hp : match_int key m a = true
      · simp [position, hp]
      · have hp2 : match_int key m a = false := by simpa using hp
        rw [hp2]
        simp only [Bool.false_eq_true, if_false]
        rw [ih (s + 1), ← ht]
        simp only [position, hp2, Bool.false_eq_true, if_false, Option.map_map]
        cases hpos : position (match_int key m) (t.take n) <;> simp [hpos]
        omega

/-- Scanning [s, s+a+b) is scanning [s, s+a) and then, on failure,
[s+a, s+a+b). -/
theorem scan_range_split (l : List Value) (key : String) (m : Int) :
    ∀ a b s, scan_range l key m s (a + b) =
      match scan_range l key m s a with
      | some i => some i
      | none => scan_range l key m (s + a) b := by
  intro a
  induction a with
  | zero =>
    intro b s
    simp [scan_range]
  | succ a ih =>
    intro b s
    rw [show a + 1 + b = (a + b) + 1 by omega]
    rw [show scan_range l key m s ((a + b) + 1) =
        (if match_int key m (l.getD s .null) then some s
         else scan_range l key m (s + 1) (a + b)) from rfl]
    rw [show scan_range l key m s (a + 1) =
        (if match_int key m (l.getD s .null) then some s
         else scan_range l key m (s + 1) a) from rfl]
    by_cases hp : match_int key m (l.getD s .null) = true
    · rw [if_pos hp]
      rw [if_pos hp]
    · have hp2 : match_int key m (l.getD s .null) = false := by simpa using hp
      simp only [hp2, Bool.false_eq_true, if_false]
      rw [ih b (s + 1)]
      rw [show s + 1 + a = s + (a + 1) by omega]

/-- The chunk loop scans the contiguous window of 8 * remaining indices. -/
theorem chunk_scan_eq_scan_range (l : List Value) (key : String) (m : Int) :
    ∀ r base, chunk_scan l key m r base = scan_range l key m base (8 * r) := by
  intro r
  induction r with
  | zero => intro base; rfl
  | succ r ih =>
    intro base
    rw [show chunk_scan l key m (r + 1) base =
        (match scan_range l key m base 8 with
         | some idx => some idx
         | none => chunk_scan l key m r (base + 8)) from rfl]
    rw [ih (base + 8)]
    rw [show 8 * (r + 1) = 8 + 8 * r by omega]
    rw [scan_range_split l key m 8 (8 * r) base]

/-- The optimized search agrees with the naive linear scan (shared helper
for the search, delete and update developments). -/
theorem find_by_int_id_optimized_eq_position :
    ∀ (array : List Value) (match_key : String) (match_value : Int),
      find_by_int_id_optimized array match_key match_value =
        position (match_int match_key match_value) array := by
  intro l key m
  rw [find_by_int_id_optimized]
  by_cases hlen : l.length < 32
  · rw [if_pos hlen]
    rfl
  · rw [if_neg hlen]
    show (match chunk_scan l key m (l.length / 8) 0 with
      | some idx => some idx
      | none => scan_range l key m (l.length / 8 * 8) (l.length - l.length / 8 * 8)) =
      position (match_int key m) l
    have hfull : scan_range l key m 0 l.length = position (match_int key m) l := by
      rw [scan_range_eq_position l key m l.length 0]
      simp [position]
    have hle : l.length / 8 * 8 ≤ l.length := Nat.div_mul_le_self l.length 8
    have hsplit := scan_range_split l key m (8 * (l.length / 8))
      (l.length - l.length / 8 * 8) 0
    rw [show 8 * (l.length / 8) + (l.length - l.length / 8 * 8) = l.length by omega] at hsplit
    rw [hfull, Nat.zero_add] at hsplit
    simp only [Nat.mul_comm 8 (l.length / 8)] at hsplit
    rw [chunk_scan_eq_scan_range l key m (l.length / 8) 0]
    simp only [Nat.mul_comm 8 (l.length / 8)]
    exact hsplit.symm

/-- C2: the size-adaptive find_by_int_id_optimized — scalar scan below 32
elements, otherwise unrolled chunks of 8 plus a scalar remainder — returns
exactly the result of the naive linear scan `position`: the index of the
first element in array order whose field at the key is the given integer
(elem.get(key).and_then(as_i64) == Some(value)), and None when no element
matches, in particular when the field is absent or non-integer on every
element. -/
theorem C2_find_by_int_id_optimized_eq_linear_scan :
    ∀ (array : List Value) (match_key : String) (match_value : Int),
      find_by_int_id_optimized array match_key match_value =
        position (match_int match_key match_value) array :=
  find_by_int_id_optimized_eq_position

/-- Sanity check on a 33-element array (chunked path): the first match at
index 20 is found. -/
theorem find_optimized_large_example :
    find_by_int_id_optimized
      (List.replicate 20 (Value.obj [("id", .num (.int 0))]) ++
        List.replicate 13 (Value.obj [("id", .num (.int 7))])) "id" 7 = some 20 := by
  rw [find_by_int_id_optimized_eq_position]
  decide

/-! ## Match predicate and find_element_by_match lemmas (C5, C10) -/

/-- When the match value is the integer n, the integer fast-path predicate
and the generic equality predicate coincide. -/
theorem match_int_eq_match_generic (key : String) (n : Int) (e : Value) :
    match_int key n e = match_generic key (.num (.int n)) e := by
  unfold match_int match_generic
  cases hget : e.get key with
  | none => rfl
  | some v =>
    cases v with
    | num jn =>
      cases jn with
      | int k =>
        show (some k == some n) = beqV (.num (.int k)) (.num (.int n))
        by_cases hkn : k = n <;> simp [hkn, beqV]
      | float q =>
        show (none == some n) = beqV (.num (.float q)) (.num (.int n))
        simp [beqV]
    | null => rfl
    | bool b => rfl
    | str s => rfl
    | arr l => rfl
    | obj m => rfl

theorem as_i64_eq_some {v : Value} {n : Int} (h : v.as_i64 = some n) :
    v = .num (.int n) := by
  cases v with
  | num jn =>
    cases jn with
    | int k =>
      simp [Value.as_i64] at h
      rw [h]
    | float q => simp [Value.as_i64] at h
  | null => simp [Value.as_i64] at h
  | bool b => simp [Value.as_i64] at h
  | str s => simp [Value.as_i64] at h
  | arr l => simp [Value.as_i64] at h
  | obj m => simp [Value.as_i64] at h

/-- find_element_by_match is the naive scan with the generic equality
predicate: the integer fast path and its fallback never change the result. -/
theorem find_element_by_match_eq_position (items : List Value) (match_key : String)
    (match_value : Value) :
    find_element_by_match items match_key match_value =
      position (match_generic match_key match_value) items := by
  unfold find_element_by_match
  cases hmv : match_value.as_i64 with
  | none => rfl
  | some n =>
    have hval := as_i64_eq_some hmv
    subst hval
    dsimp only
    rw [find_by_int_id_optimized_eq_position]
    have hpred : match_int match_key n = match_generic match_key (.num (.int n)) :=
      funext (match_int_eq_match_generic match_key n)
    rw [hpred]
    cases hpos : position (match_generic match_key (.num (.int n))) items <;> simp [hpos]

/-- C5: jsonb_array_delete_where never errors; with no match, a missing
field, or a non-array field it returns the original document structurally
unchanged, and with a match it removes exactly the first matching element
(the naive first index whose field equals the match value). -/
theorem C5_array_delete_where_behavior :
    ∀ (target : Value) (array_path match_key : String) (match_value : Value),
      ((∀ items, target.get array_path ≠ some (.arr items)) →
        jsonb_array_delete_where target array_path match_key match_value = target) ∧
      (∀ items, target.get array_path = some (.arr items) →
        position (match_generic match_key match_value) items = none →
        jsonb_array_delete_where target array_path match_key match_value = target) ∧
      (∀ target_obj items idx, target = .obj target_obj →
        getEntry target_obj array_path = some (.arr items) →
        position (match_generic match_key match_value) items = some idx →
        jsonb_array_delete_where target array_path match_key match_value =
          .obj (insertEntry target_obj array_path (.arr (items.eraseIdx idx)))) := by
  intro target array_path match_key match_value
  refine ⟨?_, ?_, ?_⟩
  · intro hnot
    unfold jsonb_array_delete_where
    cases hget : target.get array_path with
    | none => rfl
    | some v =>
      cases target <;> cases v <;> first | rfl | exact absurd hget (hnot _)
  · intro items hget hpos
    cases target with
    | obj target_obj =>
      have hget2 : getEntry target_obj array_path = some (.arr items) := hget
      unfold jsonb_array_delete_where
      rw [show (Value.obj target_obj).get array_path = getEntry target_obj array_path
        from rfl]
      rw [hget2]
      dsimp only
      rw [find_element_by_match_eq_position, hpos]
    | null => simp [Value.get] at hget
    | bool _ => simp [Value.get] at hget
    | num _ => simp [Value.get] at hget
    | str _ => simp [Value.get] at hget
    | arr _ => simp [Value.get] at hget
  · intro target_obj items idx htarget hget hpos
    subst htarget
    unfold jsonb_array_delete_where
    rw [show (Value.obj target_obj).get array_path = getEntry target_obj array_path
      from rfl]
    rw [hget]
    dsimp only
    rw [find_element_by_match_eq_position, hpos]

/-- C10 counterexample (refuting the claim's premise): the not-an-Object
guard in jsonb_array_update_where is unreachable — there is no input on
which find_element_by_match returns the index of a non-Object element,
because field lookup on a non-Object yields nothing and so such an element
can never match. -/
theorem C10_counterexample_no_nonobject_match :
    ¬ ∃ (items : List Value) (match_key : String) (match_value : Value) (idx : Nat),
        find_element_by_match items match_key match_value = some idx ∧
        (items.getD idx .null).is_object = false := by
  rintro ⟨items, match_key, match_value, idx, hfind, hobj⟩
  rw [find_element_by_match_eq_position] at hfind
  obtain ⟨-, hmatch, -⟩ := position_eq_some _ _ _ hfind
  cases hv : items.getD idx .null with
  | obj m => rw [hv] at hobj; simp [Value.is_object] at hobj
  | null => rw [hv] at hmatch; simp [match_generic, Value.get] at hmatch
  | bool b => rw [hv] at hmatch; simp [match_generic, Value.get] at hmatch
  | num n => rw [hv] at hmatch; simp [match_generic, Value.get] at hmatch
  | str s => rw [hv] at hmatch; simp [match_generic, Value.get] at hmatch
  | arr l => rw [hv] at hmatch; simp [match_generic, Value.get] at hmatch

/-- C10 amended: whenever jsonb_array_update_where finds a match, the
matched element is an Object (the skip guard is dead code) and the patch IS
applied to it by shallow merge. -/
theorem C10_matched_element_is_patched :
    ∀ (target_obj : List (String × Value)) (array_path match_key : String)
      (match_value : Value) (updates_obj : List (String × Value))
      (items : List Value) (idx : Nat) (elem_obj : List (String × Value)),
      getEntry target_obj array_path = some (.arr items) →
      validate_depth (.obj updates_obj) MAX_JSONB_DEPTH = .ok () →
      find_element_by_match items match_key match_value = some idx →
      items.getD idx .null = .obj elem_obj →
      jsonb_array_update_where (.obj target_obj) array_path match_key match_value
          (.obj updates_obj) =
        .ok (.obj (insertEntry target_obj array_path
          (.arr (items.set idx (.obj (merge_entries elem_obj updates_obj)))))) := by
  intro target_obj array_path match_key match_value updates_obj items idx elem_obj
  intro hget hdepth hfind helem
  unfold jsonb_array_update_where
  rw [show (Value.obj target_obj).get array_path = getEntry target_obj array_path from rfl]
  rw [hget]
  dsimp only
  rw [hdepth]
  dsimp only
  rw [hfind]
  dsimp only
  rw [helem]

/-- Witness for C10's amended claim at a concrete document. -/
theorem C10_matched_element_is_patched_witness :
    jsonb_array_update_where
        (.obj [("posts", .arr [.obj [("id", .num (.int 1)), ("title", .str "old")]])])
        "posts" "id" (.num (.int 1)) (.obj [("title", .str "new")]) =
      .ok (.obj (insertEntry [("posts", .arr [.obj [("id", .num (.int 1)), ("title", .str "old")]])]
        "posts"
        (.arr ([Value.obj [("id", .num (.int 1)), ("title", .str "old")]].set 0
          (.obj (merge_entries [("id", .num (.int 1)), ("title", .str "old")]
            [("title", .str "new")])))))) :=
  C10_matched_element_is_patched _ _ _ _ _ _ _ _ rfl rfl rfl rfl

/-! ## Path parser theorems (C8) -/

theorem digits_to_nat_dot : ∀ (cs : List Char) (acc : Nat), '.' ∈ cs →
    digits_to_nat cs acc = none := by
  intro cs
  induction cs with
  | nil => intro acc h; cases h
  | cons c t ih =>
    intro acc h
    rcases List.mem_cons.mp h with rfl | hmem
    · rfl
    · unfold digits_to_nat
      cases hd : digit_val c with
      | none => rfl
      | some d => exact ih _ hmem

theorem parse_usize_dot (s : String) (h : '.' ∈ s.data) : parse_usize s = none := by
  unfold parse_usize
  cases hs : s.data with
  | nil => simp [hs] at h
  | cons c rest =>
    rw [hs] at h
    dsimp only
    by_cases hc : c = '+'
    · subst hc
      rw [if_pos rfl]
      have hrest : '.' ∈ rest := by
        rcases List.mem_cons.mp h with hdot | hmem
        · cases hdot
        · exact hmem
      cases rest with
      | nil => cases hrest
      | cons c2 rest2 =>
        dsimp only
        rw [digits_to_nat_dot _ _ hrest]
    · rw [if_neg hc]
      dsimp only
      rw [digits_to_nat_dot _ _ h]

/-- Any input containing two consecutive dots makes the parser fail: the
main loop rejects them directly, and inside a bracket a dot poisons the
index text, which then never parses as a number. -/
theorem parse_path_loop_dotdot_err : ∀ n : Nat,
    (∀ (chars : List Char) (current : String) (segments : List PathSegment),
      chars.length ≤ n → (∃ u v, chars = u ++ '.' :: '.' :: v) →
      (parse_path_loop chars current segments).isOk = false) ∧
    (∀ (chars : List Char) (index_str : String) (segments : List PathSegment),
      chars.length ≤ n →
      ('.' ∈ index_str.data ∨
        (∃ u v, chars = u ++ '.' :: v ∧ ']' ∉ u) ∨
        (∃ u v, chars = u ++ '.' :: '.' :: v)) →
      (parse_path_index chars index_str segments).isOk = false) := by
  have hempty_dd : ∀ u v : List Char, ([] : List Char) = u ++ '.' :: '.' :: v → False := by
    intro u v h
    cases u <;> simp at h
  have hempty_df : ∀ u v : List Char, ([] : List Char) = u ++ '.' :: v → False := by
    intro u v h
    cases u <;> simp at h
  have hindex_nil : ∀ (index_str : String) (segments : List PathSegment),
      '.' ∈ index_str.data → (parse_path_index [] index_str segments).isOk = false := by
    intro index_str segments hmem
    unfold parse_path_index
    cases hie : index_str.isEmpty
    · simp only [Bool.false_eq_true, if_false]
      rw [parse_usize_dot _ hmem]
      rfl
    · rfl
  intro n
  induction n with
  | zero =>
    constructor
    · intro chars current segments hlen hdd
      have hnil : chars = [] := List.length_eq_zero.mp (Nat.le_zero.mp hlen)
      subst hnil
      obtain ⟨u, v, h⟩ := hdd
      exact absurd h (fun h => hempty_dd u v h)
    · intro chars index_str segments hlen hyp
      have hnil : chars = [] := List.length_eq_zero.mp (Nat.le_zero.mp hlen)
      subst hnil
      rcases hyp with hmem | ⟨u, v, h, _⟩ | ⟨u, v, h⟩
      · exact hindex_nil index_str segments hmem
      · exact absurd h (fun h => hempty_df u v h)
      · exact absurd h (fun h => hempty_dd u v h)
  | succ n ih =>
    constructor
    · intro chars current segments hlen hdd
      cases chars with
      | nil =>
        obtain ⟨u, v, h⟩ := hdd
        exact absurd h (fun h => hempty_dd u v h)
      | cons c rest =>
        obtain ⟨u, v, hsplit⟩ := hdd
        unfold parse_path_loop
        by_cases hdot : c = '.'
        · subst hdot
          rw [if_pos rfl]
          dsimp only
          cases rest with
          | nil =>
            cases u with
            | nil => simp at hsplit
            | cons u0 u2 =>
              simp only [List.cons_append, List.cons.injEq] at hsplit
              exact absurd hsplit.2 (fun h => hempty_dd u2 v h)
          | cons c2 rest2 =>
            dsimp only
            by_cases h2 : c2 = '.'
            · subst h2
              rw [if_pos rfl]
              rfl
            · rw [if_neg h2]
              have hdd2 : ∃ u v, c2 :: rest2 = u ++ '.' :: '.' :: v := by
                cases u with
                | nil =>
                  simp only [List.nil_append, List.cons.injEq] at hsplit
                  exact absurd hsplit.2.1 h2
                | cons u0 u2 =>
                  simp only [List.cons_append, List.cons.injEq] at hsplit
                  exact ⟨u2, v, hsplit.2⟩
              exact (ih.1) (c2 :: rest2) "" _ (by simpa using hlen) hdd2
        · have hrest : ∃ u v, rest = u ++ '.' :: '.' :: v := by
            cases u with
            | nil =>
              simp only [List.nil_append, List.cons.injEq] at hsplit
              exact absurd hsplit.1 hdot
            | cons u0 u2 =>
              simp only [List.cons_append, List.cons.injEq] at hsplit
              exact ⟨u2, v, hsplit.2⟩
          rw [if_neg hdot]
          by_cases hlb : c = '['
          · rw [if_pos hlb]
            dsimp only
            exact (ih.2) rest "" _ (by simpa using hlen) (Or.inr (Or.inr hrest))
          · rw [if_neg hlb]
            by_cases hrb : c = ']'
            · rw [if_pos hrb]
              rfl
            · rw [if_neg hrb]
              exact (ih.1) rest (current.push c) segments (by simpa using hlen) hrest
    · intro chars index_str segments hlen hyp
      cases chars with
      | nil =>
        rcases hyp with hmem | ⟨u, v, h, _⟩ | ⟨u, v, h⟩
        · exact hindex_nil index_str segments hmem
        · exact absurd h (fun h => hempty_df u v h)
        · exact absurd h (fun h => hempty_dd u v h)
      | cons c rest =>
        unfold parse_path_index
        by_cases hrb : c = ']'
        · subst hrb
          rw [if_pos rfl]
          have hconsume : '.' ∈ index_str.data ∨ ∃ u v, rest = u ++ '.' :: '.' :: v := by
            rcases hyp with hmem | ⟨u, v, h, hnot⟩ | ⟨u, v, h⟩
            · exact Or.inl hmem
            · exfalso
              cases u with
              | nil => simp at h
              | cons u0 u2 =>
                simp only [List.cons_append, List.cons.injEq] at h
                exact hnot (h.1 ▸ List.mem_cons_self u0 u2)
            · cases u with
              | nil => simp at h
              | cons u0 u2 =>
                simp only [List.cons_append, List.cons.injEq] at h
                exact Or.inr ⟨u2, v, h.2⟩
          rcases hconsume with hmem | hdd2
          · cases hie : index_str.isEmpty
            · simp only [Bool.false_eq_true, if_false]
              rw [parse_usize_dot _ hmem]
              rfl
            · rfl
          · cases hie : index_str.isEmpty
            · simp only [Bool.false_eq_true, if_false]
              cases hpu : parse_usize index_str
              · rfl
              · exact (ih.1) rest "" _ (by simpa using hlen) hdd2
            · rfl
        · rw [if_neg hrb]
          have hnext : '.' ∈ (index_str.push c).data ∨
              (∃ u v, rest = u ++ '.' :: v ∧ ']' ∉ u) ∨
              (∃ u v, rest = u ++ '.' :: '.' :: v) := by
            by_cases hcdot : c = '.'
            · subst hcdot
              refine Or.inl ?_
              rw [String.data_push]
              exact List.mem_append_right _ (List.mem_singleton.mpr rfl)
            · rcases hyp with hmem | ⟨u, v, h, hnot⟩ | ⟨u, v, h⟩
              · refine Or.inl ?_
                rw [String.data_push]
                exact List.mem_append_left _ hmem
              · cases u with
                | nil =>
                  simp only [List.nil_append, List.cons.injEq] at h
                  exact absurd h.1 hcdot
                | cons u0 u2 =>
                  simp only [List.cons_append, List.cons.injEq] at h
                  refine Or.inr (Or.inl ⟨u2, v, h.2, fun hin => hnot ?_⟩)
                  exact List.mem_cons_of_mem u0 hin
              · cases u with
                | nil =>
                  simp only [List.nil_append, List.cons.injEq] at h
                  exact absurd h.1 hcdot
                | cons u0 u2 =>
                  simp only [List.cons_append, List.cons.injEq] at h
                  exact Or.inr (Or.inr ⟨u2, v, h.2⟩)
          exact (ih.2) rest (index_str.push c) segments (by simpa using hlen) hnext

/-- parse_path rejects every path containing two consecutive dots, wherever
they occur. -/
theorem parse_path_dotdot_err (s : String)
    (h : ∃ u v, s.data = u ++ '.' :: '.' :: v) : (parse_path s).isOk = false :=
  (parse_path_loop_dotdot_err s.data.length).1 s.data "" [] le_rfl h

/-- C8 counterexample: a trailing dot is NOT rejected — parse_path "a."
silently drops the empty trailing segment and succeeds, where the claim
says every path with a trailing dot is an error. -/
theorem C8_counterexample_trailing_dot_accepted :
    parse_path "a." = .ok [.key "a"] := rfl

/-- C8 amended: parse_path rejects consecutive dots, an empty path, an
empty bracket body, a non-numeric bracket body, and an unmatched closing
bracket; but a path with a single leading or trailing dot is accepted with
the empty segment silently dropped, not rejected. -/
theorem C8_parse_path_error_cases :
    (∀ s : String, (∃ u v, s.data = u ++ '.' :: '.' :: v) → (parse_path s).isOk = false) ∧
    parse_path "a..b" = .error "Invalid path: consecutive dots" ∧
    parse_path ".." = .error "Invalid path: consecutive dots" ∧
    parse_path "" = .error "Invalid path: empty path" ∧
    parse_path "a[]" = .error "Invalid path: empty array index" ∧
    parse_path "a[x]" = .error "Invalid array index: x" ∧
    parse_path "a[1x]" = .error "Invalid array index: 1x" ∧
    parse_path "a]" = .error "Invalid path: unexpected closing bracket" ∧
    parse_path "]" = .error "Invalid path: unexpected closing bracket" ∧
    parse_path "a." = .ok [.key "a"] ∧
    parse_path ".a" = .ok [.key "a"] ∧
    parse_path "orders[0].items[1].price" =
      .ok [.key "orders", .index 0, .key "items", .index 1, .key "price"] := by
  exact ⟨parse_path_dotdot_err, rfl, rfl, rfl, rfl, rfl, rfl, rfl, rfl, rfl, rfl, rfl⟩

/-! ## Sorted insertion lemmas (C7) -/

theorem insertIdx_eq_take_cons_drop :
    ∀ (n : Nat) (l : List Value) (a : Value), n ≤ l.length →
      List.insertIdx n a l = l.take n ++ a :: l.drop n := by
  intro n
  induction n with
  | zero => intro l a _; simp
  | succ n ih =>
    intro l a h
    cases l with
    | nil => simp at h
    | cons b t =>
      simp only [List.insertIdx_succ_cons, List.take_succ_cons, List.drop_succ_cons,
        List.cons_append]
      rw [ih t a (by simpa using h)]

theorem ord_beq_true {a b : Ordering} (h : (a == b) = true) : a = b := by
  cases a <;> cases b <;> first | rfl | exact absurd h (by decide)

theorem ord_beq_false {a b : Ordering} (h : (a == b) = false) : a ≠ b := by
  cases a <;> cases b <;> first | exact absurd h (by decide) | decide

theorem spec_not_gt_of_cmp_lt {a b : Value} (h : compare_values a b = .lt) :
    compare_values_spec a b ≠ .gt := by
  rcases compare_values_eq_spec_off_null a b with ⟨ha, hb⟩ | heq
  · subst ha; subst hb
    intro hcon
    cases hcon
  · rw [← heq, h]
    intro hcon
    cases hcon

theorem spec_rev_not_gt_of_cmp_not_lt {a b : Value} (h : compare_values a b ≠ .lt) :
    compare_values_spec b a ≠ .gt := by
  rcases compare_values_eq_spec_off_null a b with ⟨ha, hb⟩ | heq
  · subst ha; subst hb
    intro hcon
    cases hcon
  · rw [compare_values_spec_swap]
    rw [← heq]
    cases hc : compare_values a b <;> simp [Ordering.swap]
    exact absurd hc h

theorem spec_not_lt_of_cmp_gt {a b : Value} (h : compare_values a b = .gt) :
    compare_values_spec a b ≠ .lt := by
  rcases compare_values_eq_spec_off_null a b with ⟨ha, hb⟩ | heq
  · subst ha; subst hb
    rw [compare_values] at h
    cases h
  · rw [← heq, h]
    intro hcon
    cases hcon

theorem spec_rev_not_lt_of_cmp_not_gt {a b : Value} (h : compare_values a b ≠ .gt) :
    compare_values_spec b a ≠ .lt := by
  rcases compare_values_eq_spec_off_null a b with ⟨ha, hb⟩ | heq
  · subst ha; subst hb
    intro hcon
    cases hcon
  · rw [compare_values_spec_swap]
    rw [← heq]
    cases hc : compare_values a b <;> simp [Ordering.swap]
    exact absurd hc h

/-- Inserting the new element at find_insertion_point's index preserves the
pairwise ordering of declared sort values, for any adjacency relation R
compatible with the scan predicate: R nv ev where the scan stops, R ev nv
where it passes. -/
theorem chain_insert_preserved (R : Value → Value → Prop) (cnd : Value → Bool)
    (sort_key : String) (nv new_elem : Value) (hne : new_elem.get sort_key = some nv)
    (h1 : ∀ ev, cnd ev = true → R nv ev)
    (h2 : ∀ ev, cnd ev = false → R ev nv)
    (items : List Value)
    (hs : List.Chain' R (keyed_values sort_key items)) :
    List.Chain' R (keyed_values sort_key
      (List.insertIdx
        ((position (fun elem =>
            match elem.get sort_key with
            | none => false
            | some ev => cnd ev) items).getD items.length)
        new_elem items)) := by
  set q : Value → Bool := fun elem =>
    match elem.get sort_key with
    | none => false
    | some ev => cnd ev with hq_def
  have hq_true : ∀ e, q e = true → ∃ ev, e.get sort_key = some ev ∧ cnd ev = true := by
    intro e he
    have he2 : (match e.get sort_key with
      | none => false
      | some ev => cnd ev) = true := he
    cases hg : e.get sort_key with
    | none => rw [hg] at he2; cases he2
    | some ev => rw [hg] at he2; exact ⟨ev, rfl, he2⟩
  have hq_false : ∀ e ev, q e = false → e.get sort_key = some ev → cnd ev = false := by
    intro e ev he hg
    have he2 : (match e.get sort_key with
      | none => false
      | some ev => cnd ev) = false := he
    rw [hg] at he2
    exact he2
  cases hpos : position q items with
  | none =>
    simp only [Option.getD_none]
    rw [List.insertIdx_length_self]
    unfold keyed_values
    rw [List.filterMap_append]
    have hone : List.filterMap (fun e => e.get sort_key) [new_elem] = [nv] := by
      simp [List.filterMap, hne]
    rw [hone]
    rw [List.chain'_append]
    refine ⟨hs, List.chain'_singleton nv, ?_⟩
    intro x hx y hy
    simp only [List.head?_cons, Option.mem_def, Option.some.injEq] at hy
    subst hy
    have hxmem : x ∈ List.filterMap (fun e => e.get sort_key) items :=
      List.mem_of_mem_getLast? hx
    obtain ⟨e, hein, hgx⟩ := List.mem_filterMap.mp hxmem
    have hqe : q e = false := (position_eq_none_iff q items).mp hpos e hein
    exact h2 x (hq_false e x hqe hgx)
  | some pos =>
    simp only [Option.getD_some]
    obtain ⟨hlt, hmatch, hpre⟩ := position_eq_some q items pos hpos
    rw [insertIdx_eq_take_cons_drop pos items new_elem (Nat.le_of_lt hlt)]
    unfold keyed_values at hs ⊢
    rw [List.filterMap_append]
    have hcons : List.filterMap (fun e => e.get sort_key) (new_elem :: items.drop pos) =
        nv :: List.filterMap (fun e => e.get sort_key) (items.drop pos) := by
      simp [List.filterMap_cons, hne]
    rw [hcons]
    have horig : List.filterMap (fun e => e.get sort_key) items =
        List.filterMap (fun e => e.get sort_key) (items.take pos) ++
          List.filterMap (fun e => e.get sort_key) (items.drop pos) := by
      rw [← List.filterMap_append, List.take_append_drop]
    rw [horig] at hs
    rw [List.chain'_append] at hs
    obtain ⟨hs1, hs2, _⟩ := hs
    rw [List.chain'_append]
    refine ⟨hs1, ?_, ?_⟩
    · rw [List.chain'_cons']
      refine ⟨?_, hs2⟩
      intro y hy
      rw [List.getD_eq_getElem items .null hlt] at hmatch
      obtain ⟨ev0, hg0, hc0⟩ := hq_true _ hmatch
      have hdrop : items.drop pos = items[pos] :: items.drop (pos + 1) :=
        List.drop_eq_getElem_cons hlt
      rw [hdrop] at hy
      rw [List.filterMap_cons, hg0] at hy
      simp only [List.head?_cons, Option.mem_def, Option.some.injEq] at hy
      subst hy
      exact h1 ev0 hc0
    · intro x hx y hy
      simp only [List.head?_cons, Option.mem_def, Option.some.injEq] at hy
      subst hy
      have hxmem : x ∈ List.filterMap (fun e => e.get sort_key) (items.take pos) :=
        List.mem_of_mem_getLast? hx
      obtain ⟨e, hein, hgx⟩ := List.mem_filterMap.mp hxmem
      have hqe : q e = false := hpre e hein
      exact h2 x (hq_false e x hqe hgx)

/-- One jsonb_array_insert_where call on a sorted array yields a sorted
array at the same field. -/
theorem insert_where_preserves_sorted (target_obj : List (String × Value))
    (array_path sort_key sort_order : String) (new_elem : Value) (items : List Value)
    (hget : getEntry target_obj array_path = some (.arr items))
    (hsort : sorted_on sort_key sort_order items) :
    ∃ items2,
      jsonb_array_insert_where (.obj target_obj) array_path new_elem (some sort_key)
        (some sort_order) = .ok (.obj (insertEntry target_obj array_path (.arr items2))) ∧
      sorted_on sort_key sort_order items2 := by
  refine ⟨List.insertIdx
    (find_insertion_point items (new_elem.get sort_key) sort_key sort_order)
    new_elem items, ?_, ?_⟩
  · unfold jsonb_array_insert_where
    dsimp only
    rw [hget]
    rfl
  · unfold find_insertion_point
    cases hne : new_elem.get sort_key with
    | none =>
      simp only
      rw [List.insertIdx_length_self]
      unfold sorted_on keyed_values at hsort ⊢
      rw [List.filterMap_append]
      have hnil : List.filterMap (fun e => e.get sort_key) [new_elem] = [] := by
        simp [List.filterMap, hne]
      rw [hnil, List.append_nil]
      exact hsort
    | some nv =>
      simp only
      by_cases hasc : eq_ignore_ascii_case sort_order "ASC" = true
      · have hcong : (fun (elem : Value) =>
            match elem.get sort_key with
            | none => false
            | some elem_val =>
              if eq_ignore_ascii_case sort_order "ASC" then
                compare_values nv elem_val == Ordering.lt
              else compare_values nv elem_val == Ordering.gt) = (fun (elem : Value) =>
            match elem.get sort_key with
            | none => false
            | some ev => compare_values nv ev == Ordering.lt) := by
          funext elem
          cases elem.get sort_key <;> simp [hasc]
        rw [hcong]
        have hchain := chain_insert_preserved (sort_ok sort_order)
          (fun ev => compare_values nv ev == .lt) sort_key nv new_elem hne
          (fun ev hev => by
            unfold sort_ok
            rw [if_pos hasc]
            exact spec_not_gt_of_cmp_lt (ord_beq_true hev))
          (fun ev hev => by
            unfold sort_ok
            rw [if_pos hasc]
            exact spec_rev_not_gt_of_cmp_not_lt (ord_beq_false hev))
          items hsort
        exact hchain
      · have hcong : (fun (elem : Value) =>
            match elem.get sort_key with
            | none => false
            | some elem_val =>
              if eq_ignore_ascii_case sort_order "ASC" then
                compare_values nv elem_val == Ordering.lt
              else compare_values nv elem_val == Ordering.gt) = (fun (elem : Value) =>
            match elem.get sort_key with
            | none => false
            | some ev => compare_values nv ev == Ordering.gt) := by
          funext elem
          cases elem.get sort_key <;> simp [hasc]
        rw [hcong]
        have hchain := chain_insert_preserved (sort_ok sort_order)
          (fun ev => compare_values nv ev == .gt) sort_key nv new_elem hne
          (fun ev hev => by
            unfold sort_ok
            rw [if_neg hasc]
            exact spec_not_lt_of_cmp_gt (ord_beq_true hev))
          (fun ev hev => by
            unfold sort_ok
            rw [if_neg hasc]
            exact spec_rev_not_lt_of_cmp_not_gt (ord_beq_false hev))
          items hsort
        exact hchain

/-- C7: any sequence of jsonb_array_insert_where calls under one fixed sort
key and order, starting from a document whose field holds a sorted array,
keeps that array sorted: non-decreasing (ASC) or non-increasing (otherwise,
i.e. DESC) on the declared sort-key values, under the spec's rank-based
total order. -/
theorem C7_insert_sorted_maintains_sortedness :
    ∀ (new_elems : List Value) (target_obj : List (String × Value))
      (array_path sort_key sort_order : String) (items : List Value),
      getEntry target_obj array_path = some (.arr items) →
      sorted_on sort_key sort_order items →
      ∃ target_obj2 items2,
        insert_many (.obj target_obj) array_path sort_key sort_order new_elems =
          .ok (.obj target_obj2) ∧
        getEntry target_obj2 array_path = some (.arr items2) ∧
        sorted_on sort_key sort_order items2 := by
  intro new_elems
  induction new_elems with
  | nil =>
    intro target_obj array_path sort_key sort_order items hget hsort
    exact ⟨target_obj, items, rfl, hget, hsort⟩
  | cons e rest ih =>
    intro target_obj array_path sort_key sort_order items hget hsort
    obtain ⟨items2, hstep, hsort2⟩ :=
      insert_where_preserves_sorted target_obj array_path sort_key sort_order e items
        hget hsort
    obtain ⟨target_obj3, items3, hmany, hget3, hsort3⟩ :=
      ih (insertEntry target_obj array_path (.arr items2)) array_path sort_key sort_order
        items2 (getEntry_insertEntry_self target_obj array_path (.arr items2)) hsort2
    refine ⟨target_obj3, items3, ?_, hget3, hsort3⟩
    unfold insert_many
    rw [hstep]
    exact hmany

/-- Witness for C7: two DESC inserts into a sorted two-element array. -/
theorem C7_insert_sorted_maintains_sortedness_witness :
    ∃ target_obj2 items2,
      insert_many
        (.obj [("posts", .arr [.obj [("rank", .num (.int 9))], .obj [("rank", .num (.int 4))]])])
        "posts" "rank" "DESC"
        [.obj [("rank", .num (.int 7))], .obj [("rank", .num (.int 11))]] =
        .ok (.obj target_obj2) ∧
      getEntry target_obj2 "posts" = some (.arr items2) ∧
      sorted_on "rank" "DESC" items2 :=
  C7_insert_sorted_maintains_sortedness _ _ _ _ _ _ rfl
    (List.Chain.cons (by decide) List.Chain.nil)

end JsonbIvm
